import Mathlib

/-!
# Verification of the Cheetah arithmetic kernel layer (`libspu/mpc/cheetah/arithmetic.cc`)

This file gives a shallow embedding of the two-party arithmetic sharing kernels of the
Cheetah MPC backend and proves the specified properties about them.

Ring elements of the ring `Z_{2^k}` are embedded as `Int` values, with the wrap-around
`% 2^k` written explicitly wherever the C++ code performs modular (fixed-width unsigned)
arithmetic.  Each kernel is translated from the C++ source; the out-of-scope
collaborators (the OLE engine `CheetahMulState`, the `CompareProtocol` and
`EqualProtocol` sub-protocols, whose implementations are outside the analysed sources)
are modelled from the specification's contracts as ideal functionalities, explicitly
marked `Modelled from the spec:`.
-/

namespace Cheetah

/-- `wrap k a` is the canonical representative of `a` in `Z_{2^k}`, i.e. `a % 2^k`
(the fixed-width unsigned value held in the C++ ring buffers). -/
def wrap (k : Nat) (a : Int) : Int := a % ((2 : Int) ^ k)

/-- `ring_add` from the ring arithmetic utility: element-wise add mod `2^k`. -/
def ringAdd (k : Nat) (a b : Int) : Int := wrap k (a + b)

/-- `ring_sub` from the ring arithmetic utility: element-wise subtract mod `2^k`. -/
def ringSub (k : Nat) (a b : Int) : Int := wrap k (a - b)

/-- `ring_mul` from the ring arithmetic utility: element-wise multiply mod `2^k`. -/
def ringMul (k : Nat) (a b : Int) : Int := wrap k (a * b)

theorem wrap_wrap (k : Nat) (a : Int) : wrap k (wrap k a) = wrap k a :=
  Int.emod_emod_of_dvd a dvd_rfl

theorem wrap_add_left (k : Nat) (a b : Int) :
    wrap k (wrap k a + b) = wrap k (a + b) := by
  unfold wrap
  rw [Int.add_emod, Int.emod_emod_of_dvd a dvd_rfl, ← Int.add_emod]

theorem wrap_add_right (k : Nat) (a b : Int) :
    wrap k (a + wrap k b) = wrap k (a + b) := by
  unfold wrap
  rw [Int.add_emod, Int.emod_emod_of_dvd b dvd_rfl, ← Int.add_emod]

theorem wrap_sub_left (k : Nat) (a b : Int) :
    wrap k (wrap k a - b) = wrap k (a - b) := by
  unfold wrap
  rw [Int.sub_emod, Int.emod_emod_of_dvd a dvd_rfl, ← Int.sub_emod]

theorem wrap_sub_right (k : Nat) (a b : Int) :
    wrap k (a - wrap k b) = wrap k (a - b) := by
  unfold wrap
  rw [Int.sub_emod, Int.emod_emod_of_dvd b dvd_rfl, ← Int.sub_emod]

theorem wrap_mul_left (k : Nat) (a b : Int) :
    wrap k (wrap k a * b) = wrap k (a * b) := by
  unfold wrap
  rw [Int.mul_emod, Int.emod_emod_of_dvd a dvd_rfl, ← Int.mul_emod]

theorem wrap_mul_right (k : Nat) (a b : Int) :
    wrap k (a * wrap k b) = wrap k (a * b) := by
  unfold wrap
  rw [Int.mul_emod, Int.emod_emod_of_dvd b dvd_rfl, ← Int.mul_emod]

/-- Two ring representatives are equal iff the underlying integers are congruent. -/
theorem wrap_eq_wrap (k : Nat) (a b : Int) :
    wrap k a = wrap k b ↔ a ≡ b [ZMOD ((2 : Int) ^ k)] := Iff.rfl

/- ### MulAA path selection (`MulAA::proc`, arithmetic.cc lines 252-263)

`MulAA::proc` reads `batch_sze = OLEBatchSize()` and `numel = x.numel()`, and
dispatches: `if (numel >= 2 * batch_sze) return mulDirectly(...); return
mulWithBeaver(...);`. -/

/-- The two code paths of the shared-by-shared multiply kernel. -/
inductive MulAAPath : Type
  | direct : MulAAPath
  | beaver : MulAAPath
deriving DecidableEq

/-- Path choice of `MulAA::proc`: direct OLE multiplication when
`numel >= 2 * batch_sze`, otherwise Beaver-triple multiplication. -/
def MulAA_path (numel batchSize : Int) : MulAAPath :=
  if numel ≥ 2 * batchSize then MulAAPath.direct else MulAAPath.beaver

/-- C5: `MulAA` takes the direct-OLE path exactly when `numel ≥ 2 * OLEBatchSize`,
and otherwise takes the Beaver-triple path. -/
theorem MulAA_path_threshold (numel batchSize : Int) :
    (MulAA_path numel batchSize = MulAAPath.direct ↔ numel ≥ 2 * batchSize) ∧
    (MulAA_path numel batchSize = MulAAPath.beaver ↔ ¬ numel ≥ 2 * batchSize) := by
  unfold MulAA_path
  by_cases h : numel ≥ 2 * batchSize <;> simp [h]

/- ### TruncA (`TruncA::proc`, arithmetic.cc lines 35-55)

`TruncA::proc(ctx, x, bits, sign)` builds a `TruncateProtocol::Meta` with
`signed_arith = true; sign = sign; shift_bits = bits; use_heuristic = true;`
and calls `TruncateProtocol::Compute(input, meta)`. -/

/-- Sign hint passed down by callers of the truncation kernel. -/
inductive SignType : Type
  | unknown : SignType
  | positive : SignType
  | negative : SignType
deriving DecidableEq

/-- `TruncateProtocol::Meta` (truncate_prot.h): parameters handed to the Truncate
Protocol. -/
structure TruncateMeta : Type where
  signedArith : Bool
  sign : SignType
  shiftBits : Nat
  useHeuristic : Bool
deriving DecidableEq

/-- The `TruncateProtocol::Meta` that `TruncA::proc` constructs from its caller-supplied
arguments `bits` and `sign` (arithmetic.cc lines 47-51). -/
def TruncA_metaOf (bits : Nat) (sign : SignType) : TruncateMeta :=
  { signedArith := true, sign := sign, shiftBits := bits, useHeuristic := true }

/-- C7 counterexample: no choice of the caller-visible arguments of `TruncA::proc`
produces a meta without the heuristic flag; the kernel hard-codes
`meta.use_heuristic = true`, so a caller cannot obtain exact truncation through
`TruncA`. -/
theorem TruncA_no_exact_call :
    ¬ ∃ (bits : Nat) (sign : SignType),
      (TruncA_metaOf bits sign).useHeuristic = false := by
  rintro ⟨bits, sign, h⟩
  simp [TruncA_metaOf] at h

/-- C7 (amended): for every call, `TruncA::proc` passes `use_heuristic = true`
(together with `signed_arith = true` and the caller's `bits` and `sign`) to the
Truncate Protocol; the heuristic-vs-exact choice is fixed by the kernel, not
selected by the caller. -/
theorem TruncA_meta_fixed (bits : Nat) (sign : SignType) :
    (TruncA_metaOf bits sign).useHeuristic = true ∧
    (TruncA_metaOf bits sign).signedArith = true ∧
    (TruncA_metaOf bits sign).shiftBits = bits ∧
    (TruncA_metaOf bits sign).sign = sign := by
  exact ⟨rfl, rfl, rfl, rfl⟩

/- ### Zero-sized matrix-multiply operands
(`MatMulAA::proc` lines 398-402, `BatchMatMulAV::proc` lines 476-483,
`BatchMatMulAA::proc` lines 539-546)

Each kernel starts with
`if (0 == x.numel() || 0 == y.numel()) return NdArrayRef(x.eltype(), {x.shape()[0], y.shape()[1]});`
i.e. on a zero-sized operand it returns immediately — before any OLE/OT state is
looked up or dispatched — with an array of shape `{x.shape()[0], y.shape()[1]}`. -/

/-- `numel` of an n-dimensional array: the product of its shape dimensions. -/
def numelOf (shape : List Int) : Int := shape.foldr (· * ·) 1

/-- The early-return branch of `MatMulAA::proc` (x is (M,K), y is (K,N)):
`some s` means the kernel returns an array of shape `s` immediately, without invoking
any sub-protocol; `none` means it proceeds to the OLE-based protocol body. -/
def MatMulAA_zeroReturn (xshape yshape : List Int) : Option (List Int) :=
  if numelOf xshape = 0 ∨ numelOf yshape = 0 then
    some [xshape.getD 0 0, yshape.getD 1 0]
  else none

/-- The early-return branch of `BatchMatMulAA::proc` (x is (B,M,K), y is (B,K,N)),
verbatim the same `{x.shape()[0], y.shape()[1]}` shape as the 2-D kernel. -/
def BatchMatMulAA_zeroReturn (xshape yshape : List Int) : Option (List Int) :=
  if numelOf xshape = 0 ∨ numelOf yshape = 0 then
    some [xshape.getD 0 0, yshape.getD 1 0]
  else none

/-- The early-return branch of `BatchMatMulAV::proc` (x is (B,M,K), y is (B,K,N)),
verbatim the same `{x.shape()[0], y.shape()[1]}` shape as the 2-D kernel. -/
def BatchMatMulAV_zeroReturn (xshape yshape : List Int) : Option (List Int) :=
  if numelOf xshape = 0 ∨ numelOf yshape = 0 then
    some [xshape.getD 0 0, yshape.getD 1 0]
  else none

/-- C6: on zero-sized operands the 2-D kernel `MatMulAA` does return the correctly
shaped `(M, N)` result without invoking any sub-protocol, but the batched kernels
return a two-dimensional `{B, K}` array instead of the correctly shaped `(B, M, N)`
result: with x of shape (2,3,0) and y of shape (2,0,5), both `BatchMatMulAA` and
`BatchMatMulAV` return shape `[2, 0]`, not `[2, 3, 5]`. -/
theorem BatchMatMul_zero_shape_bug :
    MatMulAA_zeroReturn [3, 0] [0, 5] = some [3, 5] ∧
    BatchMatMulAA_zeroReturn [2, 3, 0] [2, 0, 5] = some [2, 0] ∧
    BatchMatMulAV_zeroReturn [2, 3, 0] [2, 0, 5] = some [2, 0] ∧
    ([2, 0] : List Int) ≠ [2, 3, 5] := by
  refine ⟨?_, ?_, ?_, by decide⟩ <;> decide

/- ### Private-value multiply routing
(`MulA1BV::proc` lines 184-217, `MulAV::proc` lines 219-250)

`MulA1BV::proc`: `if (rank != owner)` dispatch `base_ot->PrivateMulxSend(ashr)`,
else dispatch `base_ot->PrivateMulxRecv(ashr, bshr)`.
`MulAV::proc`: `if (rank != owner) out = mul_prot->MulOLE(fx, /*eval*/true);`
`else { out = mul_prot->MulOLE(fy, /*eval*/false); ring_add_(out, ring_mul(fx, fy)); }`. -/

/-- The OT-base primitive a party invokes inside `MulA1BV::proc`, together with the
operands it hands to that primitive. -/
inductive OTPrimitiveCall : Type
  | privateMulxSend (input : Int) : OTPrimitiveCall
  | privateMulxRecv (input0 input1 : Int) : OTPrimitiveCall
deriving DecidableEq

/-- Which primitive `MulA1BV::proc` invokes at a given rank, and with which operands
(`ashr` the party's arithmetic share, `bshr` the private boolean operand, held only by
`owner`). -/
def MulA1BV_call (rank owner : Nat) (ashr bshr : Int) : OTPrimitiveCall :=
  if rank ≠ owner then OTPrimitiveCall.privateMulxSend ashr
  else OTPrimitiveCall.privateMulxRecv ashr bshr

/-- One party's view of `MulAV::proc`: the operand it feeds to the vector OLE, the
OLE evaluator flag it passes, and the product it adds locally afterwards. -/
structure MulAVTrace : Type where
  oleInput : Int
  oleEval : Bool
  localAddend : Int
deriving DecidableEq

/-- `MulAV::proc` at a given rank (`xi` the party's arithmetic share of x, `y` the
private operand, held only by `owner`). -/
def MulAV_trace (k : Nat) (rank owner : Nat) (xi y : Int) : MulAVTrace :=
  if rank ≠ owner then ⟨xi, true, 0⟩ else ⟨y, false, ringMul k xi y⟩

/-- C8: in both private-value kernels the computation is routed by owner rank. In
`MulA1BV` the non-owner invokes only the private-multiply send primitive with its own
arithmetic share (the private operand never reaches its call) while the owner invokes
the receive primitive; in `MulAV` the non-owner evaluates the OLE on its own share and
adds nothing locally, while the owner feeds `y` to the OLE in the non-evaluator role
and adds its local product `x_i * y`. -/
theorem privateMul_routing (k rank owner : Nat) (ashr bshr xi y : Int) :
    (rank ≠ owner →
      MulA1BV_call rank owner ashr bshr = OTPrimitiveCall.privateMulxSend ashr ∧
      MulAV_trace k rank owner xi y = ⟨xi, true, 0⟩) ∧
    (rank = owner →
      MulA1BV_call rank owner ashr bshr = OTPrimitiveCall.privateMulxRecv ashr bshr ∧
      MulAV_trace k rank owner xi y = ⟨y, false, ringMul k xi y⟩) := by
  constructor <;> intro h <;>
    simp [MulA1BV_call, MulAV_trace, h]

/-- Witness for `privateMul_routing` at rank 0 / owner 1 (non-owner side) and
rank 1 / owner 1 (owner side). -/
theorem privateMul_routing_witness :
    (MulA1BV_call 0 1 5 7 = OTPrimitiveCall.privateMulxSend 5 ∧
     MulAV_trace 4 0 1 5 7 = ⟨5, true, 0⟩) ∧
    (MulA1BV_call 1 1 5 7 = OTPrimitiveCall.privateMulxRecv 5 7 ∧
     MulAV_trace 4 1 1 5 7 = ⟨7, false, ringMul 4 5 7⟩) :=
  ⟨(privateMul_routing 4 0 1 5 7 5 7).1 (by decide),
   (privateMul_routing 4 1 1 5 7 5 7).2 rfl⟩

/- ### SquareA half-split (`SquareA::proc` lines 277-297)

`int64_t nhalf = numel <= 8192 ? numel : numel / 2;` — the first OLE call always
covers `fx.slice({0}, {nhalf}, {1})`; only `if (nhalf < numel)` is the duplicate
connection (`duplx()`) acquired and a second OLE evaluated on
`fx.slice({nhalf}, {numel}, {1})` over it. -/

/-- `nhalf` as computed by `SquareA::proc`. -/
def SquareA_nhalf (numel : Int) : Int := if numel ≤ 8192 then numel else numel / 2

/-- Whether `SquareA::proc` acquires the duplicate connection
(the `if (nhalf < numel)` guard). -/
def SquareA_usesDuplex (numel : Int) : Bool := decide (SquareA_nhalf numel < numel)

/-- A contiguous slice `fx.slice({lo}, {hi}, {1})` of the flattened input. -/
structure SliceRange : Type where
  lo : Int
  hi : Int
deriving DecidableEq

/-- The slices of the flattened input on which `SquareA::proc` evaluates the
cross-term OLE; the second entry, when present, is the one evaluated concurrently
over the duplicate connection. -/
def SquareA_oleSlices (numel : Int) : List SliceRange :=
  if SquareA_nhalf numel < numel then
    [⟨0, SquareA_nhalf numel⟩, ⟨SquareA_nhalf numel, numel⟩]
  else
    [⟨0, SquareA_nhalf numel⟩]

/-- C10: for `1 ≤ numel ≤ 8192` the cross-term OLE is a single call covering all
`numel` elements (`nhalf = numel`) and the duplicate connection is never acquired;
for `numel > 8192` the input is split at `nhalf = numel / 2`, the duplicate
connection is acquired, and the second half `[nhalf, numel)` is evaluated over it. -/
theorem SquareA_split (numel : Int) :
    (1 ≤ numel → numel ≤ 8192 →
      SquareA_nhalf numel = numel ∧ SquareA_usesDuplex numel = false ∧
      SquareA_oleSlices numel = [⟨0, numel⟩]) ∧
    (8192 < numel →
      SquareA_nhalf numel = numel / 2 ∧ SquareA_usesDuplex numel = true ∧
      SquareA_oleSlices numel = [⟨0, numel / 2⟩, ⟨numel / 2, numel⟩]) := by
  constructor
  · intro _ h2
    have hn : SquareA_nhalf numel = numel := by simp [SquareA_nhalf, h2]
    refine ⟨hn, ?_, ?_⟩ <;> simp [SquareA_usesDuplex, SquareA_oleSlices, hn]
  · intro h
    have hn : SquareA_nhalf numel = numel / 2 := by
      simp [SquareA_nhalf]
      omega
    have hlt : numel / 2 < numel := by omega
    refine ⟨hn, ?_, ?_⟩ <;> simp [SquareA_usesDuplex, SquareA_oleSlices, hn, hlt]

/-- Witness for `SquareA_split` at `numel = 5` (single-call regime) and
`numel = 10000` (split regime). -/
theorem SquareA_split_witness :
    (SquareA_nhalf 5 = 5 ∧ SquareA_usesDuplex 5 = false ∧
      SquareA_oleSlices 5 = [⟨0, 5⟩]) ∧
    (SquareA_nhalf 10000 = 10000 / 2 ∧ SquareA_usesDuplex 10000 = true ∧
      SquareA_oleSlices 10000 = [⟨0, 10000 / 2⟩, ⟨10000 / 2, 10000⟩]) :=
  ⟨(SquareA_split 5).1 (by decide) (by decide),
   (SquareA_split 10000).2 (by decide)⟩

/- ### SquareA reconstruction (`SquareA::proc` lines 265-302) -/

theorem wrap_eq_of_modEq {k : Nat} {a b : Int}
    (h : a ≡ b [ZMOD ((2 : Int) ^ k)]) : wrap k a = wrap k b := h

theorem modEq_of_wrap_eq {k : Nat} {a b : Int}
    (h : wrap k a = wrap k b) : a ≡ b [ZMOD ((2 : Int) ^ k)] := h

/-- One party's output of `SquareA::proc` for one element: the party holds the OLE
cross-term share `hi` (`x0x1` in the code), doubles it in place
(`ring_add_(x0x1, x0x1)`), and adds the square of its own share
(`ring_add(x0x1, ring_mul(x, x))`). -/
def SquareA_out (k : Nat) (xi hi : Int) : Int :=
  ringAdd k (ringAdd k hi hi) (ringMul k xi xi)

/-- C4: given OLE cross-term shares with `h0 + h1 = x0 * x1 (mod 2^k)` (the vector-OLE
engine's contract, modelled from the spec), the reconstructed output of `SquareA`
equals `(x0 + x1)^2 mod 2^k`: the kernel realizes
`(x0+x1)^2 = x0^2 + 2*<x0*x1> + x1^2`. -/
theorem SquareA_recon (k : Nat) (x0 x1 h0 h1 : Int)
    (hole : wrap k (h0 + h1) = wrap k (x0 * x1)) :
    ringAdd k (SquareA_out k x0 h0) (SquareA_out k x1 h1) =
      wrap k ((x0 + x1) * (x0 + x1)) := by
  have hc : (h0 + h1 : Int) ≡ x0 * x1 [ZMOD ((2 : Int) ^ k)] := hole
  simp only [SquareA_out, ringAdd, ringMul, wrap_add_left, wrap_add_right,
    wrap_mul_left, wrap_mul_right, wrap_wrap]
  apply wrap_eq_of_modEq
  have h2 := (hc.mul_left 2).add_right (x0 * x0 + x1 * x1)
  convert h2 using 1 <;> ring

/-- Witness for `SquareA_recon` with `k = 4`, shares `x0 = 3, x1 = 5` and OLE
cross-term shares `h0 = 7, h1 = 8` (indeed `7 + 8 = 15 = 3 * 5 mod 16`). -/
theorem SquareA_recon_witness :
    wrap 4 (7 + 8) = wrap 4 (3 * 5) ∧
    ringAdd 4 (SquareA_out 4 3 7) (SquareA_out 4 5 8) =
      wrap 4 ((3 + 5) * (3 + 5)) :=
  ⟨by decide, SquareA_recon 4 3 5 7 8 (by decide)⟩

/- ### MulAA (`MulAA::mulWithBeaver` lines 304-338, `MulAA::mulDirectly` lines 340-375)

`mulWithBeaver` (element-wise over the flattened arrays): takes a cached Beaver triple
`(a, b, c)`, opens `x - a` and `y - b` by an allReduce-ADD of the parties' local
`ring_sub` results, computes `z = (x_a * b_i + y_b * a_i) + c_i`, and rank 0 adds
`x_a * y_b`.

`mulDirectly`: flattens both operands, splits them at `nhalf = n / 2`, and feeds the
two halves to two `MulShare` OLE calls — the second half over the duplicate connection
with `evaluator = (rank == 0)`, the first half over the primary connection with
`evaluator = (rank != 0)` — then concatenates the two result slices. -/

/-- The value opened by the allReduce in `mulWithBeaver`: both parties learn
`ring_add(ring_sub(u0, v0), ring_sub(u1, v1))`, i.e. `(u0 - v0) + (u1 - v1) mod 2^k`. -/
def beaverOpen (k : Nat) (u0 v0 u1 v1 : Int) : Int :=
  ringAdd k (ringSub k u0 v0) (ringSub k u1 v1)

/-- One party's output element of `MulAA::mulWithBeaver`: `ai, bi, ci` its Beaver
triple shares, `x_a` and `y_b` the opened `x - a` and `y - b`. -/
def mulWithBeaver_out (k : Nat) (rank : Nat) (ai bi ci x_a y_b : Int) : Int :=
  if rank = 0 then
    ringAdd k (ringAdd k (ringAdd k (ringMul k x_a bi) (ringMul k y_b ai)) ci)
      (ringMul k x_a y_b)
  else
    ringAdd k (ringAdd k (ringMul k x_a bi) (ringMul k y_b ai)) ci

/-- Modelled from the spec: the OLE engine's `MulShare` contract (the implementation
of `CheetahMulState::MulShare` is an out-of-scope collaborator). Given the two
parties' share elements it returns an additive sharing of the full product
`(x0 + x1) * (y0 + y1) mod 2^k`; `r` is the engine's masking randomness and
`evalIsP0` records which party plays the homomorphic-evaluator role. -/
def mulShareShares (k : Nat) (evalIsP0 : Bool) (x0 y0 x1 y1 r : Int) : Int × Int :=
  if evalIsP0 then (wrap k ((x0 + x1) * (y0 + y1) - r), wrap k r)
  else (wrap k r, wrap k ((x0 + x1) * (y0 + y1) - r))

/-- `MulShare` applied element-wise to equally long share vectors (one randomness
element per product element). -/
def mulShareList (k : Nat) (evalIsP0 : Bool) :
    List Int → List Int → List Int → List Int → List Int → List (Int × Int)
  | x0 :: xs, y0 :: ys, x1 :: as, y1 :: bs, r :: rs =>
      mulShareShares k evalIsP0 x0 y0 x1 y1 r :: mulShareList k evalIsP0 xs ys as bs rs
  | _, _, _, _, _ => []

/-- `MulAA::mulDirectly`: both output slices, as pairs of the two parties' output
elements.  The first `MulShare` call covers `[0, n/2)` with `evaluator = rank != 0`
(party 1 evaluates); the second covers `[n/2, n)` over the duplicate connection with
`evaluator = rank == 0` (party 0 evaluates); the slices are concatenated in order. -/
def mulDirectly (k : Nat) (x0s y0s x1s y1s rs : List Int) : List (Int × Int) :=
  mulShareList k false (x0s.take (x0s.length / 2)) (y0s.take (x0s.length / 2))
      (x1s.take (x0s.length / 2)) (y1s.take (x0s.length / 2)) (rs.take (x0s.length / 2)) ++
  mulShareList k true (x0s.drop (x0s.length / 2)) (y0s.drop (x0s.length / 2))
      (x1s.drop (x0s.length / 2)) (y1s.drop (x0s.length / 2)) (rs.drop (x0s.length / 2))

theorem mulShareShares_recon (k : Nat) (e : Bool) (x0 y0 x1 y1 r : Int) :
    ringAdd k (mulShareShares k e x0 y0 x1 y1 r).1 (mulShareShares k e x0 y0 x1 y1 r).2 =
      wrap k ((x0 + x1) * (y0 + y1)) := by
  cases e <;>
    · simp only [mulShareShares, Bool.false_eq_true, if_false, if_true, ringAdd,
        wrap_add_left, wrap_add_right, wrap_wrap]
      congr 1
      ring

theorem mulShareList_length_eq (k : Nat) (e : Bool) :
    ∀ (x0s y0s x1s y1s rs : List Int) (L : Nat),
      x0s.length = L → y0s.length = L → x1s.length = L → y1s.length = L →
      rs.length = L →
      (mulShareList k e x0s y0s x1s y1s rs).length = L := by
  intro x0s
  induction x0s with
  | nil =>
    intro y0s x1s y1s rs L h1 h2 h3 h4 h5
    simp at h1
    cases y0s <;> cases x1s <;> cases y1s <;> cases rs <;>
      simp_all [mulShareList]
  | cons x0 xs ih =>
    intro y0s x1s y1s rs L h1 h2 h3 h4 h5
    simp only [List.length_cons] at h1
    cases y0s with
    | nil => simp only [List.length_nil] at h2; omega
    | cons y0 ys =>
      cases x1s with
      | nil => simp only [List.length_nil] at h3; omega
      | cons x1 as =>
        cases y1s with
        | nil => simp only [List.length_nil] at h4; omega
        | cons y1 bs =>
          cases rs with
          | nil => simp only [List.length_nil] at h5; omega
          | cons r rs' =>
            simp only [List.length_cons] at h2 h3 h4 h5
            cases L with
            | zero => omega
            | succ L =>
              simp only [mulShareList, List.length_cons]
              rw [ih ys as bs rs' L (by omega) (by omega) (by omega) (by omega)
                (by omega)]

theorem mulShareList_getD (k : Nat) (e : Bool) :
    ∀ (x0s y0s x1s y1s rs : List Int) (i : Nat),
      i < x0s.length → i < y0s.length → i < x1s.length → i < y1s.length →
      i < rs.length →
      (mulShareList k e x0s y0s x1s y1s rs).getD i (0, 0) =
        mulShareShares k e (x0s.getD i 0) (y0s.getD i 0) (x1s.getD i 0)
          (y1s.getD i 0) (rs.getD i 0) := by
  intro x0s
  induction x0s with
  | nil => intro y0s x1s y1s rs i h1 h2 h3 h4 h5; simp at h1
  | cons x0 xs ih =>
    intro y0s x1s y1s rs i h1 h2 h3 h4 h5
    cases y0s with
    | nil => simp at h2
    | cons y0 ys =>
      cases x1s with
      | nil => simp at h3
      | cons x1 as =>
        cases y1s with
        | nil => simp at h4
        | cons y1 bs =>
          cases rs with
          | nil => simp at h5
          | cons r rs' =>
            cases i with
            | zero => simp [mulShareList]
            | succ i =>
              simp only [List.length_cons] at h1 h2 h3 h4 h5
              simp only [mulShareList, List.getD_cons_succ]
              exact ih ys as bs rs' i (by omega) (by omega) (by omega) (by omega)
                (by omega)

theorem getD_take (l : List Int) :
    ∀ (n i : Nat), i < n → (l.take n).getD i 0 = l.getD i 0 := by
  induction l with
  | nil => intro n i _; simp
  | cons x xs ih =>
    intro n i hi
    cases n with
    | zero => omega
    | succ n =>
      cases i with
      | zero => simp
      | succ i => simpa using ih n i (by omega)

theorem getD_drop (l : List Int) :
    ∀ (n i : Nat), (l.drop n).getD i 0 = l.getD (n + i) 0 := by
  induction l with
  | nil => intro n i; simp
  | cons x xs ih =>
    intro n i
    cases n with
    | zero => simp
    | succ n =>
      have harith : n + 1 + i = (n + i) + 1 := by omega
      rw [harith]
      simp [ih n i]

/-- Element `i` of the `mulDirectly` output is the `MulShare` sharing of the `i`-th
product elements, produced with `evaluator = rank == 0` exactly when `i` falls in the
second half. -/
theorem mulDirectly_getD (k : Nat) (x0s y0s x1s y1s rs : List Int) (i : Nat)
    (hy0 : y0s.length = x0s.length) (hx1 : x1s.length = x0s.length)
    (hy1 : y1s.length = x0s.length) (hr : rs.length = x0s.length)
    (hi : i < x0s.length) :
    (mulDirectly k x0s y0s x1s y1s rs).getD i (0, 0) =
      mulShareShares k (decide (x0s.length / 2 ≤ i)) (x0s.getD i 0) (y0s.getD i 0)
        (x1s.getD i 0) (y1s.getD i 0) (rs.getD i 0) := by
  have hhalf : x0s.length / 2 ≤ x0s.length := Nat.div_le_self _ _
  have hlenA : (mulShareList k false (x0s.take (x0s.length / 2))
      (y0s.take (x0s.length / 2)) (x1s.take (x0s.length / 2))
      (y1s.take (x0s.length / 2)) (rs.take (x0s.length / 2))).length =
      x0s.length / 2 := by
    apply mulShareList_length_eq <;> simp [List.length_take] <;> omega
  by_cases hcase : i < x0s.length / 2
  · rw [mulDirectly, List.getD_append _ _ _ _ (by omega)]
    rw [mulShareList_getD k false _ _ _ _ _ i
      (by simp [List.length_take]; omega) (by simp [List.length_take]; omega)
      (by simp [List.length_take]; omega) (by simp [List.length_take]; omega)
      (by simp [List.length_take]; omega)]
    rw [getD_take x0s _ _ hcase, getD_take y0s _ _ hcase, getD_take x1s _ _ hcase,
      getD_take y1s _ _ hcase, getD_take rs _ _ hcase]
    have hdec : decide (x0s.length / 2 ≤ i) = false := by simp; omega
    rw [hdec]
  · rw [mulDirectly, List.getD_append_right _ _ _ _ (by omega)]
    rw [hlenA]
    rw [mulShareList_getD k true _ _ _ _ _ (i - x0s.length / 2)
      (by simp [List.length_drop]; omega) (by simp [List.length_drop]; omega)
      (by simp [List.length_drop]; omega) (by simp [List.length_drop]; omega)
      (by simp [List.length_drop]; omega)]
    have hidx : ∀ l : List Int, (l.drop (x0s.length / 2)).getD (i - x0s.length / 2) 0 =
        l.getD i 0 := by
      intro l
      rw [getD_drop]
      congr 1
      omega
    rw [hidx x0s, hidx y0s, hidx x1s, hidx y1s, hidx rs]
    have hdec : decide (x0s.length / 2 ≤ i) = true := by simp; omega
    rw [hdec]

/-- C1: for every ring width `k`, all 2-splits `(x0, x1)`, `(y0, y1)` held element-wise
in the parties' share vectors, valid Beaver material (`c0 + c1 = (a0+a1)(b0+b1) mod
2^k`, the cached-triple contract, modelled from the spec), and any OLE masking
randomness, both parties' outputs of `MulAA` reconstruct to `(x*y) mod 2^k` on the
direct-OLE path (`mulDirectly`) and on the Beaver path (`mulWithBeaver`), and the two
reconstructions are identical. -/
theorem MulAA_recon (k : Nat) (x0 x1 y0 y1 : Int)
    (x0s y0s x1s y1s rs : List Int) (i : Nat)
    (hy0 : y0s.length = x0s.length) (hx1 : x1s.length = x0s.length)
    (hy1 : y1s.length = x0s.length) (hr : rs.length = x0s.length)
    (hi : i < x0s.length)
    (hgx0 : x0s.getD i 0 = x0) (hgy0 : y0s.getD i 0 = y0)
    (hgx1 : x1s.getD i 0 = x1) (hgy1 : y1s.getD i 0 = y1)
    (a0 a1 b0 b1 c0 c1 : Int)
    (htriple : wrap k (c0 + c1) = wrap k ((a0 + a1) * (b0 + b1))) :
    ringAdd k ((mulDirectly k x0s y0s x1s y1s rs).getD i (0, 0)).1
        ((mulDirectly k x0s y0s x1s y1s rs).getD i (0, 0)).2 =
      wrap k ((x0 + x1) * (y0 + y1)) ∧
    ringAdd k
        (mulWithBeaver_out k 0 a0 b0 c0 (beaverOpen k x0 a0 x1 a1)
          (beaverOpen k y0 b0 y1 b1))
        (mulWithBeaver_out k 1 a1 b1 c1 (beaverOpen k x0 a0 x1 a1)
          (beaverOpen k y0 b0 y1 b1)) =
      wrap k ((x0 + x1) * (y0 + y1)) ∧
    ringAdd k ((mulDirectly k x0s y0s x1s y1s rs).getD i (0, 0)).1
        ((mulDirectly k x0s y0s x1s y1s rs).getD i (0, 0)).2 =
      ringAdd k
        (mulWithBeaver_out k 0 a0 b0 c0 (beaverOpen k x0 a0 x1 a1)
          (beaverOpen k y0 b0 y1 b1))
        (mulWithBeaver_out k 1 a1 b1 c1 (beaverOpen k x0 a0 x1 a1)
          (beaverOpen k y0 b0 y1 b1)) := by
  have hdirect : ringAdd k ((mulDirectly k x0s y0s x1s y1s rs).getD i (0, 0)).1
      ((mulDirectly k x0s y0s x1s y1s rs).getD i (0, 0)).2 =
      wrap k ((x0 + x1) * (y0 + y1)) := by
    rw [mulDirectly_getD k x0s y0s x1s y1s rs i hy0 hx1 hy1 hr hi]
    rw [hgx0, hgy0, hgx1, hgy1]
    exact mulShareShares_recon k _ x0 y0 x1 y1 (rs.getD i 0)
  have hbeaver : ringAdd k
      (mulWithBeaver_out k 0 a0 b0 c0 (beaverOpen k x0 a0 x1 a1)
        (beaverOpen k y0 b0 y1 b1))
      (mulWithBeaver_out k 1 a1 b1 c1 (beaverOpen k x0 a0 x1 a1)
        (beaverOpen k y0 b0 y1 b1)) =
      wrap k ((x0 + x1) * (y0 + y1)) := by
    have hc : (c0 + c1 : Int) ≡ (a0 + a1) * (b0 + b1) [ZMOD ((2 : Int) ^ k)] :=
      htriple
    have hout0 : ∀ ai bi ci e f : Int, mulWithBeaver_out k 0 ai bi ci e f =
        ringAdd k (ringAdd k (ringAdd k (ringMul k e bi) (ringMul k f ai)) ci)
          (ringMul k e f) := by
      intro ai bi ci e f
      simp [mulWithBeaver_out]
    have hout1 : ∀ ai bi ci e f : Int, mulWithBeaver_out k 1 ai bi ci e f =
        ringAdd k (ringAdd k (ringMul k e bi) (ringMul k f ai)) ci := by
      intro ai bi ci e f
      simp [mulWithBeaver_out]
    rw [hout0, hout1]
    simp only [beaverOpen, ringAdd, ringSub, ringMul,
      wrap_add_left, wrap_add_right, wrap_sub_left,
      wrap_sub_right, wrap_mul_left, wrap_mul_right, wrap_wrap]
    apply wrap_eq_of_modEq
    have h2 := (hc.add_left
      ((x0 - a0 + (x1 - a1)) * (b0 + b1) + (y0 - b0 + (y1 - b1)) * (a0 + a1))).add_right
      ((x0 - a0 + (x1 - a1)) * (y0 - b0 + (y1 - b1)))
    convert h2 using 1 <;> ring
  exact ⟨hdirect, hbeaver, by rw [hdirect, hbeaver]⟩

/-- Witness for `MulAA_recon`: `k = 4`, element 0 of singleton share vectors
`x = 3 + 5, y = 2 + 9`, OLE randomness `6`, Beaver triple `a = 1 + 2, b = 4 + 3,
c = 5 + 0` (indeed `5 + 0 = 21 = 3 * 7 mod 16`). -/
theorem MulAA_recon_witness :
    wrap 4 (5 + 0) = wrap 4 ((1 + 2) * (4 + 3)) ∧
    ringAdd 4 ((mulDirectly 4 [3] [2] [5] [9] [6]).getD 0 (0, 0)).1
        ((mulDirectly 4 [3] [2] [5] [9] [6]).getD 0 (0, 0)).2 =
      wrap 4 ((3 + 5) * (2 + 9)) ∧
    ringAdd 4
        (mulWithBeaver_out 4 0 1 4 5 (beaverOpen 4 3 1 5 2) (beaverOpen 4 2 4 9 3))
        (mulWithBeaver_out 4 1 2 3 0 (beaverOpen 4 3 1 5 2) (beaverOpen 4 2 4 9 3)) =
      wrap 4 ((3 + 5) * (2 + 9)) := by
  have h := MulAA_recon 4 3 5 2 9 [3] [2] [5] [9] [6] 0 rfl rfl rfl rfl
    (by decide) rfl rfl rfl rfl 1 2 4 3 5 0 (by decide)
  exact ⟨by decide, h.1, h.2.1⟩

/- ### EqualAA / EqualAP (`EqualAA::proc` lines 131-164, `EqualAP::proc` lines 107-129)

`EqualAA` computes the rank-dependent adjusted difference
(`adjusted = ring_sub(x, y)` for rank 0, `ring_sub(y, x)` for rank 1) and feeds it to
`EqualProtocol::Compute(input, nbits)`; we model the default `nbits_ = 0` case where
`nbits` is the full ring width.  `EqualAP` forwards to `EqualAA`, with rank 0
substituting `ring_zeros` for its y operand and rank 1 passing the plaintext y. -/

/-- The adjusted operand `EqualAA::proc` computes at each rank:
`x0 - y0 mod 2^k` for rank 0 and `y1 - x1 mod 2^k` for rank 1. -/
def EqualAA_adjusted (k : Nat) (rank : Nat) (xi yi : Int) : Int :=
  if rank = 0 then ringSub k xi yi else ringSub k yi xi

/-- Modelled from the spec: `EqualProtocol::Compute` (implementation out of scope)
returns a boolean (XOR) sharing of `1{a0 == a1}` of the two parties' adjusted inputs;
`r` is the protocol's share-masking randomness (party 0 receives `bit XOR r`,
party 1 receives `r`). -/
def equalIdealShares (a0 a1 : Int) (r : Nat) : Nat × Nat :=
  ((if a0 = a1 then 1 else 0) ^^^ r, r)

/-- XOR-reconstruction of the two parties' `EqualAA` output bits. -/
def EqualAA_recon (k : Nat) (x0 y0 x1 y1 : Int) (r : Nat) : Nat :=
  (equalIdealShares (EqualAA_adjusted k 0 x0 y0) (EqualAA_adjusted k 1 x1 y1) r).1 ^^^
  (equalIdealShares (EqualAA_adjusted k 0 x0 y0) (EqualAA_adjusted k 1 x1 y1) r).2

/-- The right-hand operand each rank of `EqualAP::proc` passes to `EqualAA`:
rank 0 feeds `ring_zeros` in place of y, rank 1 feeds the plaintext y, so exactly one
real right-hand input enters the equality machinery. -/
def EqualAP_rhs (rank : Nat) (y : Int) : Int := if rank = 0 then 0 else y

theorem equal_cond_iff (k : Nat) (x0 y0 x1 y1 : Int) :
    (ringSub k x0 y0 = ringSub k y1 x1) ↔ (wrap k (x0 + x1) = wrap k (y0 + y1)) := by
  have h1 : (ringSub k x0 y0 = ringSub k y1 x1) ↔
      ((2 : Int) ^ k ∣ (y1 - x1) - (x0 - y0)) := by
    constructor
    · intro h
      exact Int.modEq_iff_dvd.mp (modEq_of_wrap_eq h)
    · intro h
      exact wrap_eq_of_modEq (Int.modEq_iff_dvd.mpr h)
  have h2 : (wrap k (x0 + x1) = wrap k (y0 + y1)) ↔
      ((2 : Int) ^ k ∣ (y0 + y1) - (x0 + x1)) := by
    constructor
    · intro h
      exact Int.modEq_iff_dvd.mp (modEq_of_wrap_eq h)
    · intro h
      exact wrap_eq_of_modEq (Int.modEq_iff_dvd.mpr h)
  rw [h1, h2, show ((y0 + y1) - (x0 + x1) : Int) = (y1 - x1) - (x0 - y0) from by ring]

/-- C3: XOR-reconstructing the two parties' `EqualAA` outputs equals `1{x == y}` on
the reconstructed inputs (the adjusted inputs being `x0 - y0` for rank 0 and
`y1 - x1` for rank 1, as in the source); and in `EqualAP` rank 0 substitutes zero for
its y operand, so the effective shares of the plaintext y are `(0, y)` and the
reconstruction still equals `1{x == y}`. -/
theorem Equal_recon (k : Nat) (x0 y0 x1 y1 y : Int) (r r' : Nat) :
    (EqualAA_recon k x0 y0 x1 y1 r =
      if wrap k (x0 + x1) = wrap k (y0 + y1) then 1 else 0) ∧
    EqualAP_rhs 0 y = 0 ∧ EqualAP_rhs 1 y = y ∧
    (EqualAA_recon k x0 (EqualAP_rhs 0 y) x1 (EqualAP_rhs 1 y) r' =
      if wrap k (x0 + x1) = wrap k y then 1 else 0) := by
  have hmain : ∀ (y0' y1' : Int) (r'' : Nat), EqualAA_recon k x0 y0' x1 y1' r'' =
      if wrap k (x0 + x1) = wrap k (y0' + y1') then 1 else 0 := by
    intro y0' y1' r''
    have hadj0 : EqualAA_adjusted k 0 x0 y0' = ringSub k x0 y0' := by
      simp [EqualAA_adjusted]
    have hadj1 : EqualAA_adjusted k 1 x1 y1' = ringSub k y1' x1 := by
      simp [EqualAA_adjusted]
    unfold EqualAA_recon
    rw [hadj0, hadj1]
    simp only [equalIdealShares]
    rw [Nat.xor_assoc, Nat.xor_self, Nat.xor_zero]
    rw [if_congr (equal_cond_iff k x0 y0' x1 y1') rfl rfl]
  refine ⟨hmain y0 y1 r, rfl, rfl, ?_⟩
  rw [hmain (EqualAP_rhs 0 y) (EqualAP_rhs 1 y) r']
  norm_num [EqualAP_rhs]

/- ### MsbA2B (`MsbA2B::proc` lines 62-105)

With the default `nbits_ = 0`, `nbits` is the full ring width `k` and
`shft = k - 1`, `mask = 2^{k-1} - 1` (unsigned, width k).  Rank 0 computes
`adjusted = x0 & mask`; rank 1 computes `adjusted = (mask - x1) & mask`, the
subtraction being fixed-width unsigned (mod `2^k`) arithmetic.  One
`CompareProtocol::Compute(adjusted, greater=true)` call produces a boolean sharing of
the carry `1{adjusted_0 > adjusted_1}`, and each party XORs its local top bit
(`_carry_bit[i] ^= xinp[i] >> shft`). -/

/-- `mask = 2^{k-1} - 1` of `MsbA2B::proc`. -/
def MsbA2B_mask (k : Nat) : Nat := 2 ^ (k - 1) - 1

/-- The adjusted operand each rank feeds to the Compare Protocol; the rank-1
subtraction `mask - x1` is mod-`2^k` (fixed-width unsigned) arithmetic, encoded as
`(mask + 2^k - x1) % 2^k` for `x1 < 2^k`. -/
def MsbA2B_adjusted (k : Nat) (rank : Nat) (xi : Nat) : Nat :=
  if rank = 0 then xi &&& MsbA2B_mask k
  else ((MsbA2B_mask k + 2 ^ k - xi) % 2 ^ k) &&& MsbA2B_mask k

/-- Modelled from the spec: `CompareProtocol::Compute` with `greater_than = true`
(implementation out of scope; contract in compare_prot.h) returns a boolean (XOR)
sharing of `1{a0 > a1}` of the two parties' inputs; `r` is the protocol's
share-masking randomness (party 0 receives `bit XOR r`, party 1 receives `r`). -/
def compareIdealShares (a0 a1 : Nat) (r : Nat) : Nat × Nat :=
  ((if a1 < a0 then 1 else 0) ^^^ r, r)

/-- One party's `MsbA2B` output bit: its carry share XORed with its own top bit. -/
def MsbA2B_out (k : Nat) (xi cshare : Nat) : Nat := cshare ^^^ (xi >>> (k - 1))

theorem xor_shuffle (c r t0 t1 : Nat) :
    ((c ^^^ r) ^^^ t0) ^^^ (r ^^^ t1) = (c ^^^ t0) ^^^ t1 := by
  have hl : ∀ a b c : Nat, a ^^^ (b ^^^ c) = b ^^^ (a ^^^ c) := by
    intro a b c
    rw [← Nat.xor_assoc, Nat.xor_comm a b, Nat.xor_assoc]
  have hcan : ∀ a b : Nat, a ^^^ (a ^^^ b) = b := by
    intro a b
    rw [← Nat.xor_assoc, Nat.xor_self, Nat.zero_xor]
  simp only [Nat.xor_assoc, Nat.xor_comm, hl, hcan]

theorem MsbA2B_adjusted_zero (s x0 : Nat) :
    MsbA2B_adjusted (s + 1) 0 x0 = x0 % 2 ^ s := by
  unfold MsbA2B_adjusted MsbA2B_mask
  rw [if_pos rfl]
  simp only [Nat.add_sub_cancel]
  exact Nat.and_pow_two_sub_one_eq_mod x0 s

theorem MsbA2B_adjusted_one (s x1 : Nat) (hx1 : x1 < 2 ^ (s + 1)) :
    MsbA2B_adjusted (s + 1) 1 x1 = 2 ^ s - 1 - x1 % 2 ^ s := by
  unfold MsbA2B_adjusted MsbA2B_mask
  rw [if_neg (one_ne_zero : (1 : Nat) ≠ 0)]
  simp only [Nat.add_sub_cancel]
  rw [Nat.and_pow_two_sub_one_eq_mod]
  rw [Nat.mod_mod_of_dvd _ (pow_dvd_pow 2 (by omega : s ≤ s + 1))]
  have hm : 0 < 2 ^ s := pow_pos (by norm_num) s
  have hb : x1 % 2 ^ s < 2 ^ s := Nat.mod_lt _ hm
  have hdm : 2 ^ s * (x1 / 2 ^ s) + x1 % 2 ^ s = x1 := Nat.div_add_mod x1 (2 ^ s)
  have ht : x1 / 2 ^ s ≤ 1 := by
    have h2 : x1 < 2 * 2 ^ s := by
      rw [pow_succ] at hx1
      omega
    have := (Nat.div_lt_iff_lt_mul hm).mpr (by omega : x1 < 2 * 2 ^ s)
    omega
  rcases Nat.le_one_iff_eq_zero_or_eq_one.mp ht with h | h
  · rw [h] at hdm
    rw [pow_succ,
      show 2 ^ s - 1 + 2 ^ s * 2 - x1 = (2 ^ s - 1 - x1 % 2 ^ s) + 2 * 2 ^ s from
        by omega,
      Nat.add_mul_mod_self_right]
    exact Nat.mod_eq_of_lt (by omega)
  · rw [h] at hdm
    rw [pow_succ,
      show 2 ^ s - 1 + 2 ^ s * 2 - x1 = (2 ^ s - 1 - x1 % 2 ^ s) + 1 * 2 ^ s from
        by omega,
      Nat.add_mul_mod_self_right]
    exact Nat.mod_eq_of_lt (by omega)

theorem msb_eval (m u C : Nat) (hm : 0 < m) (hu : u < m) (hC : C ≤ 3) :
    (m * C + u) % (2 * m) / m = C % 2 := by
  interval_cases C
  · rw [Nat.mul_zero, Nat.zero_add, Nat.mod_eq_of_lt (by omega),
      Nat.div_eq_of_lt hu]
  · rw [show m * 1 + u = u + m from by omega, Nat.mod_eq_of_lt (by omega),
      Nat.add_div_right u hm, Nat.div_eq_of_lt hu]
  · rw [show m * 2 + u = u + 2 * m from by omega, Nat.add_mod_right,
      Nat.mod_eq_of_lt (by omega), Nat.div_eq_of_lt hu]
  · rw [show m * 3 + u = (u + m) + 2 * m from by omega, Nat.add_mod_right,
      Nat.mod_eq_of_lt (by omega), Nat.add_div_right u hm, Nat.div_eq_of_lt hu]

/-- C2: for a ring of width `k ≥ 1` and shares `x0, x1 < 2^k`, XOR-reconstructing the
two parties' `MsbA2B` outputs equals the most significant bit of `(x0 + x1) mod 2^k`;
moreover the single Compare Protocol call receives the adjusted operands
`x0 & (2^{k-1}-1)` (i.e. `x0 mod 2^{k-1}`) for rank 0 and `(2^{k-1}-1 - x1) & mask`
(i.e. `2^{k-1} - 1 - (x1 mod 2^{k-1})`) for rank 1. -/
theorem MsbA2B_recon (k : Nat) (x0 x1 r : Nat) (hk : 1 ≤ k)
    (hx0 : x0 < 2 ^ k) (hx1 : x1 < 2 ^ k) :
    (MsbA2B_out k x0 (compareIdealShares (MsbA2B_adjusted k 0 x0)
        (MsbA2B_adjusted k 1 x1) r).1) ^^^
    (MsbA2B_out k x1 (compareIdealShares (MsbA2B_adjusted k 0 x0)
        (MsbA2B_adjusted k 1 x1) r).2) =
      ((x0 + x1) % 2 ^ k) >>> (k - 1) ∧
    MsbA2B_adjusted k 0 x0 = x0 % 2 ^ (k - 1) ∧
    MsbA2B_adjusted k 1 x1 = 2 ^ (k - 1) - 1 - x1 % 2 ^ (k - 1) := by
  obtain ⟨s, rfl⟩ : ∃ s, k = s + 1 := ⟨k - 1, by omega⟩
  simp only [Nat.add_sub_cancel]
  refine ⟨?_, MsbA2B_adjusted_zero s x0, MsbA2B_adjusted_one s x1 hx1⟩
  simp only [MsbA2B_out, compareIdealShares, Nat.add_sub_cancel]
  rw [MsbA2B_adjusted_zero s x0, MsbA2B_adjusted_one s x1 hx1]
  rw [Nat.shiftRight_eq_div_pow, Nat.shiftRight_eq_div_pow,
    Nat.shiftRight_eq_div_pow, xor_shuffle]
  have hm : 0 < 2 ^ s := pow_pos (by norm_num) s
  rw [pow_succ] at hx0 hx1 ⊢
  obtain ⟨t0, a, ht0, ha, rfl⟩ : ∃ t a, t ≤ 1 ∧ a < 2 ^ s ∧ x0 = 2 ^ s * t + a := by
    refine ⟨x0 / 2 ^ s, x0 % 2 ^ s, ?_, Nat.mod_lt _ hm,
      (Nat.div_add_mod x0 (2 ^ s)).symm⟩
    have := (Nat.div_lt_iff_lt_mul hm).mpr (by omega : x0 < 2 * 2 ^ s)
    omega
  obtain ⟨t1, b, ht1, hb, rfl⟩ : ∃ t b, t ≤ 1 ∧ b < 2 ^ s ∧ x1 = 2 ^ s * t + b := by
    refine ⟨x1 / 2 ^ s, x1 % 2 ^ s, ?_, Nat.mod_lt _ hm,
      (Nat.div_add_mod x1 (2 ^ s)).symm⟩
    have := (Nat.div_lt_iff_lt_mul hm).mpr (by omega : x1 < 2 * 2 ^ s)
    omega
  rw [Nat.mul_add_div hm, Nat.mul_add_div hm, Nat.mul_add_mod, Nat.mul_add_mod,
    Nat.div_eq_of_lt ha, Nat.div_eq_of_lt hb, Nat.mod_eq_of_lt ha,
    Nat.mod_eq_of_lt hb, Nat.add_zero, Nat.add_zero]
  interval_cases t0 <;> interval_cases t1 <;> by_cases hcar : 2 ^ s ≤ a + b
  · rw [show (2 ^ s * 2 : Nat) = 2 * 2 ^ s from by ring,
      show 2 ^ s * 0 + a + (2 ^ s * 0 + b) = 2 ^ s * 1 + (a + b - 2 ^ s) from by omega,
      msb_eval (2 ^ s) _ 1 hm (by omega) (by omega),
      if_pos (by omega : 2 ^ s - 1 - b < a)]
    decide
  · rw [show (2 ^ s * 2 : Nat) = 2 * 2 ^ s from by ring,
      show 2 ^ s * 0 + a + (2 ^ s * 0 + b) = 2 ^ s * 0 + (a + b) from by omega,
      msb_eval (2 ^ s) _ 0 hm (by omega) (by omega),
      if_neg (by omega : ¬ 2 ^ s - 1 - b < a)]
    decide
  · rw [show (2 ^ s * 2 : Nat) = 2 * 2 ^ s from by ring,
      show 2 ^ s * 0 + a + (2 ^ s * 1 + b) = 2 ^ s * 2 + (a + b - 2 ^ s) from by omega,
      msb_eval (2 ^ s) _ 2 hm (by omega) (by omega),
      if_pos (by omega : 2 ^ s - 1 - b < a)]
    decide
  · rw [show (2 ^ s * 2 : Nat) = 2 * 2 ^ s from by ring,
      show 2 ^ s * 0 + a + (2 ^ s * 1 + b) = 2 ^ s * 1 + (a + b) from by omega,
      msb_eval (2 ^ s) _ 1 hm (by omega) (by omega),
      if_neg (by omega : ¬ 2 ^ s - 1 - b < a)]
    decide
  · rw [show (2 ^ s * 2 : Nat) = 2 * 2 ^ s from by ring,
      show 2 ^ s * 1 + a + (2 ^ s * 0 + b) = 2 ^ s * 2 + (a + b - 2 ^ s) from by omega,
      msb_eval (2 ^ s) _ 2 hm (by omega) (by omega),
      if_pos (by omega : 2 ^ s - 1 - b < a)]
    decide
  · rw [show (2 ^ s * 2 : Nat) = 2 * 2 ^ s from by ring,
      show 2 ^ s * 1 + a + (2 ^ s * 0 + b) = 2 ^ s * 1 + (a + b) from by omega,
      msb_eval (2 ^ s) _ 1 hm (by omega) (by omega),
      if_neg (by omega : ¬ 2 ^ s - 1 - b < a)]
    decide
  · rw [show (2 ^ s * 2 : Nat) = 2 * 2 ^ s from by ring,
      show 2 ^ s * 1 + a + (2 ^ s * 1 + b) = 2 ^ s * 3 + (a + b - 2 ^ s) from by omega,
      msb_eval (2 ^ s) _ 3 hm (by omega) (by omega),
      if_pos (by omega : 2 ^ s - 1 - b < a)]
    decide
  · rw [show (2 ^ s * 2 : Nat) = 2 * 2 ^ s from by ring,
      show 2 ^ s * 1 + a + (2 ^ s * 1 + b) = 2 ^ s * 2 + (a + b) from by omega,
      msb_eval (2 ^ s) _ 2 hm (by omega) (by omega),
      if_neg (by omega : ¬ 2 ^ s - 1 - b < a)]
    decide

/-- Witness for `MsbA2B_recon` at `k = 4`, `x0 = 9, x1 = 10, r = 1`:
`(9 + 10) mod 16 = 3`, whose MSB is 0. -/
theorem MsbA2B_recon_witness :
    (MsbA2B_out 4 9 (compareIdealShares (MsbA2B_adjusted 4 0 9)
        (MsbA2B_adjusted 4 1 10) 1).1) ^^^
    (MsbA2B_out 4 10 (compareIdealShares (MsbA2B_adjusted 4 0 9)
        (MsbA2B_adjusted 4 1 10) 1).2) =
      ((9 + 10) % 2 ^ 4) >>> (4 - 1) ∧
    MsbA2B_adjusted 4 0 9 = 9 % 2 ^ (4 - 1) ∧
    MsbA2B_adjusted 4 1 10 = 2 ^ (4 - 1) - 1 - 10 % 2 ^ (4 - 1) :=
  MsbA2B_recon 4 9 10 1 (by decide) (by decide) (by decide)

/- ### EqualAP environment hint (`EqualAP::proc` lines 107-129)

```
int iequal_bits = 0;
const auto* env_str = std::getenv("SPU_BB_SET_IEQUAL_BITS");
if (env_str != nullptr) {
  char* pEnd;
  auto bits = std::strtol(env_str, &pEnd, 10);
  if (*pEnd == 0) {
    iequal_bits = std::min<int>(x.elsize() * 8, std::max<int>(bits, 0));
  }
}
```
`strtol(..., 10)` skips C-locale whitespace, accepts an optional sign and a decimal
digit run, sets `pEnd` past the last digit (or back to the start when no digit was
consumed), and saturates at LONG_MIN/LONG_MAX on overflow.  `bits` is a `long`;
`std::max<int>(bits, 0)` narrows it to a 32-bit int (two's-complement wraparound)
before the clamp. -/

/-- C-locale `isspace`, as consumed by `strtol`. -/
def isSpaceCh (c : Char) : Bool :=
  c = ' ' || c = '\t' || c = '\n' || c = '\x0b' || c = '\x0c' || c = '\r'

/-- Decimal digit test of `strtol` base 10. -/
def isDigitCh (c : Char) : Bool := '0' ≤ c && c ≤ '9'

/-- Value of a run of decimal digits (most significant first), accumulator style. -/
def digitsVal : Int → List Char → Int
  | acc, [] => acc
  | acc, c :: cs => digitsVal (acc * 10 + ((c.toNat - '0'.toNat : Nat) : Int)) cs

/-- The leading-whitespace skip of `strtol`. -/
def skipSpaces : List Char → List Char
  | [] => []
  | c :: cs => if isSpaceCh c then skipSpaces cs else c :: cs

/-- `strtol` saturation at the `long` range on overflow. -/
def clampLong (v : Int) : Int := max (-(2 ^ 63)) (min (2 ^ 63 - 1) v)

/-- `std::strtol(s, &pEnd, 10)` on a character list: returns the parsed value and the
remainder of the string starting at `pEnd`.  When no digit is consumed, `pEnd` is the
original start (so the remainder is the whole input) and the value is 0. -/
def strtol10 (s : List Char) : Int × List Char :=
  match skipSpaces s with
  | '-' :: cs =>
    let ds := cs.takeWhile isDigitCh
    if ds = [] then (0, s)
    else (clampLong (-(digitsVal 0 ds)), cs.dropWhile isDigitCh)
  | '+' :: cs =>
    let ds := cs.takeWhile isDigitCh
    if ds = [] then (0, s)
    else (clampLong (digitsVal 0 ds), cs.dropWhile isDigitCh)
  | cs =>
    let ds := cs.takeWhile isDigitCh
    if ds = [] then (0, s)
    else (clampLong (digitsVal 0 ds), cs.dropWhile isDigitCh)

/-- Two's-complement narrowing of a `long` value to a 32-bit `int`
(the `std::max<int>(bits, 0)` template-argument conversion). -/
def wrap32 (v : Int) : Int := (v + 2 ^ 31) % 2 ^ 32 - 2 ^ 31

/-- The significant-bit hint `EqualAP::proc` computes from the
`SPU_BB_SET_IEQUAL_BITS` environment variable (`none` = variable absent) and the
element size in bytes. -/
def EqualAP_iequalBits (env : Option (List Char)) (elsize : Nat) : Int :=
  match env with
  | none => 0
  | some s =>
    if (strtol10 s).2 = [] then
      min ((elsize : Int) * 8) (max (wrap32 (strtol10 s).1) 0)
    else 0

theorem wrap32_eq_of_range (v : Int) (h1 : -(2 ^ 31) ≤ v) (h2 : v < 2 ^ 31) :
    wrap32 v = v := by
  unfold wrap32
  rw [Int.emod_eq_of_lt (by omega) (by omega)]
  omega

/-- C9 counterexample: the environment value "4294967296" (= 2^32) parses completely,
so on the claim's reading the hint would be clamped to `min(64, 4294967296) = 64`
for 8-byte elements; the code instead narrows the parsed `long` to a 32-bit int
(2^32 wraps to 0) before clamping and yields 0. -/
theorem EqualAP_iequalBits_not_clamped :
    strtol10 ("4294967296".toList) = (4294967296, []) ∧
    EqualAP_iequalBits (some ("4294967296".toList)) 8 = 0 ∧
    min ((8 : Int) * 8) (max (4294967296 : Int) 0) = 64 := by
  refine ⟨by decide, by decide, by decide⟩

/-- C9 (amended): the hint is taken from `SPU_BB_SET_IEQUAL_BITS` only when `strtol`
consumes the entire value; a successfully parsed value is first narrowed to a 32-bit
signed int (two's-complement wraparound) and then clamped into `[0, 8 * elsize]`
— in particular, for parsed values that fit in 32 bits this is exactly the claimed
clamp; when the variable is absent or has trailing non-numeric characters the hint
remains 0 (full ring width). -/
theorem EqualAP_iequalBits_spec (env : Option (List Char)) (elsize : Nat) :
    (env = none → EqualAP_iequalBits env elsize = 0) ∧
    (∀ s, env = some s → (strtol10 s).2 ≠ [] → EqualAP_iequalBits env elsize = 0) ∧
    (∀ s, env = some s → (strtol10 s).2 = [] →
      EqualAP_iequalBits env elsize =
        min ((elsize : Int) * 8) (max (wrap32 (strtol10 s).1) 0)) ∧
    (∀ s, env = some s → (strtol10 s).2 = [] →
      -(2 ^ 31) ≤ (strtol10 s).1 → (strtol10 s).1 < 2 ^ 31 →
      EqualAP_iequalBits env elsize =
        min ((elsize : Int) * 8) (max (strtol10 s).1 0)) := by
  refine ⟨?_, ?_, ?_, ?_⟩
  · intro h
    rw [h]
    rfl
  · intro s hs hrest
    rw [hs]
    simp [EqualAP_iequalBits, hrest]
  · intro s hs hrest
    rw [hs]
    simp [EqualAP_iequalBits, hrest]
  · intro s hs hrest h1 h2
    rw [hs]
    simp [EqualAP_iequalBits, hrest, wrap32_eq_of_range _ h1 h2]

/-- Witness for `EqualAP_iequalBits_spec` at `env = some "12"` and `elsize = 8`. -/
theorem EqualAP_iequalBits_spec_witness :
    EqualAP_iequalBits (some ("12".toList)) 8 =
      min ((8 : Int) * 8) (max (strtol10 ("12".toList)).1 0) :=
  (EqualAP_iequalBits_spec (some ("12".toList)) 8).2.2.2 ("12".toList) rfl
    (by decide) (by decide) (by decide)

end Cheetah
